import Mathlib

/-!
Verification of the neodux core: the dynamic reducer-tree builder
(`src/lib/actions.ts`) and the dispatch serialization engine
(`src/unnamed/part_000`, the store module).

The TypeScript source is shallowly embedded:
* JavaScript runtime values are the inductive `JsVal`; plain objects are
  association lists in insertion order (matching `Object.keys` enumeration
  order for string keys); `undefined` is the value `JsVal.undefined`; a promise
  object is `JsVal.pending id`, referring by index to a recorded, not yet
  awaited computation.
* fallible code returns `Except JsErr _`; a thrown `TypeError` or `Error`
  is the corresponding `JsErr` constructor.
* the store's mutable fields become explicit state threading on `Engine`.
-/

set_option maxRecDepth 2000

namespace Neodux

/-- A JavaScript runtime error: `TypeError` or a plain `Error` with message. -/
inductive JsErr where
  | typeError (msg : String)
  | error (msg : String)
deriving Repr, DecidableEq

/-- A JavaScript value, as far as the store core manipulates them.
`obj` carries the fields of a plain object as an association list in
insertion order.  `pending id` is a promise object that has not been
awaited; `id` indexes the recorded computation that would produce its
value. -/
inductive JsVal where
  | undefined
  | nan
  | int (n : Int)
  | str (s : String)
  | obj (fields : List (String × JsVal))
  | pending (id : Nat)

/-- Association-list lookup, first binding wins (as in a JS object, where
a key occurs at most once; our builders never duplicate keys). -/
def getA {κ α : Type} [DecidableEq κ] : List (κ × α) → κ → Option α
  | [], _ => none
  | (k, v) :: rest, key => if k = key then some v else getA rest key

/-- Association-list update: replace the binding in place if the key is
present (keeping enumeration order, as JS property assignment does),
otherwise append the new binding at the end (as JS property creation
does). -/
def setA {κ α : Type} [DecidableEq κ] : List (κ × α) → κ → α → List (κ × α)
  | [], key, v => [(key, v)]
  | (k, w) :: rest, key, v =>
    if k = key then (key, v) :: rest else (k, w) :: setA rest key v

/-- Object fields. -/
abbrev Fields := List (String × JsVal)

/-- `state[key]` on a JS object: `undefined` when the key is absent. -/
def getF (s : Fields) (key : String) : JsVal := (getA s key).getD .undefined

/-- `state[key] = v` on a JS object. -/
def setF (s : Fields) (key : String) (v : JsVal) : Fields := setA s key v

/-- `key in obj`: the binding is present (its value may still be
`undefined`). -/
def hasKey (s : Fields) (key : String) : Bool := (getA s key).isSome

/-- Is this value JS `undefined`? -/
def isUndefined : JsVal → Bool
  | .undefined => true
  | _ => false

/-- A dispatched action object `{type, payload}` (actions.ts lines 3-6). -/
structure JsAction where
  type : String
  payload : JsVal

/-- A raw registered handler `({state, payload}) => newState`
(actions.ts lines 17-21); it may throw, hence `Except`. -/
abbrev HandlerFn := JsVal → JsVal → Except JsErr JsVal

/-- One entry of `ActionsRegistry._actionTypeToHandlers`
(actions.ts lines 52-56): name, type tag, selector and raw handler. -/
structure Reg where
  name : String
  type : String
  selector : String
  handler : HandlerFn

/-- Split a character list at every `'.'` occurrence; the segments never
contain a dot and the result is never empty (JS
`"".split(".") === [""]`). -/
def splitDotChars : List Char → List String
  | [] => [""]
  | c :: rest =>
    if c = '.' then "" :: splitDotChars rest
    else
      match splitDotChars rest with
      | [] => [String.mk [c]]
      | h :: t => String.mk (c :: h.data) :: t

/-- JS `s.split('.')`, structurally recursive so it reduces
definitionally (behaviorally identical to `String.splitOn "."`). -/
def splitDot (s : String) : List String := splitDotChars s.data

/-- The dot-split selector path of a registration
(`ah.selector.split('.')`, actions.ts line 230). -/
def selPath (r : Reg) : List String := splitDot r.selector

/-- The transition-aware adapter wrapped around each raw handler
(actions.ts lines 188-213): initial-value call on undefined state,
passthrough on no action or a non-matching type tag, and a real handler
invocation only on a matching type tag. -/
def adaptHandler (r : Reg) (state : JsVal) (action : Option JsAction) :
    Except JsErr JsVal :=
  if isUndefined state then r.handler .undefined .undefined
  else
    match action with
    | none => .ok state
    | some a => if a.type = r.type then r.handler state a.payload else .ok state

/-- A slot of the action tree built at actions.ts lines 227-254.
`fn r` is the adapted handler of registration `r`.  `promiseFn` is what
the collision branch (line 246) actually stores: `compose` (line 72) is
an `async` function, so `compose(ah.handler, root[ah.selector])` is a
pending `Promise`, not a function (and its `gn` argument
`root[ah.selector]` is looked up under the full selector string, where
no function lives).  Invoking the stored promise later throws a
`TypeError`. -/
inductive Slot where
  | fn (r : Reg)
  | promiseFn

/-- The accumulator of the reduce at actions.ts lines 227-254: handlers
on root keys, and nested handlers grouped by parent path.  The source
keys the nested map by the dot-joined parent path string and re-splits
it at lines 258-268; since the segments come from `split('.')` they are
dot-free, so keying directly by the segment list is equivalent. -/
structure ActionTree where
  root : List (String × Slot)
  nested : List (List String × List (String × Slot))

/-- Insert one converted registration into the action tree, mirroring
the reduce body at actions.ts lines 228-252: single-segment selectors go
to `root`, multi-segment selectors go to `nested` under their parent
path with their last segment as leaf key; a second registration at an
already occupied leaf position takes the collision branch and stores the
un-awaited `compose` promise.  (`String.splitOn` never returns `[]`, so
the first case is unreachable.) -/
def insertReg (t : ActionTree) (r : Reg) : ActionTree :=
  match selPath r with
  | [] => t
  | [k] =>
    let sl := match getA t.root k with
      | none => Slot.fn r
      | some _ => Slot.promiseFn
    { t with root := setA t.root k sl }
  | k :: k2 :: rest =>
    let split := k :: k2 :: rest
    let suffix := split.getLast (by simp)
    let dest := split.dropLast
    let m := (getA t.nested dest).getD []
    let sl := match getA m suffix with
      | none => Slot.fn r
      | some _ => Slot.promiseFn
    { t with nested := setA t.nested dest (setA m suffix sl) }

/-- Build the whole action tree from the registration list
(actions.ts lines 227-254). -/
def buildActionTree (regs : List Reg) : ActionTree :=
  regs.foldl insertReg ⟨[], []⟩

/-- Invoke a stored slot on `(state, action)`.  A `promiseFn` slot holds
a `Promise` object, and calling a promise throws a `TypeError` (this is
what `state[key] = await actionTree.root[key]({...})` does at runtime
when the slot came from the collision branch). -/
def invokeSlot (sl : Slot) (state : JsVal) (action : Option JsAction) :
    Except JsErr JsVal :=
  match sl with
  | .fn r => adaptHandler r state action
  | .promiseFn => .error (.typeError "handler is not a function")

/-- Run every slot of one key-to-slot map against the matching field of
`s`, writing each result back (actions.ts lines 277-285 for the root
map, lines 297-305 for a nested leaf map).  The source creates all the
promises over distinct keys and awaits them together; as each key is
read once and written once and the keys of one map are distinct, the
left-to-right fold is observationally equivalent. -/
def applyLeaves (action : Option JsAction) :
    List (String × Slot) → Fields → Except JsErr Fields
  | [], s => .ok s
  | (k, sl) :: rest, s =>
    match invokeSlot sl (getF s k) action with
    | .error e => .error e
    | .ok v => applyLeaves action rest (setF s k v)

/-- Walk `path` down from `s`, materializing missing intermediate nodes
as empty objects (actions.ts lines 289-296:
`if (curr[path[i]] === undefined) curr[path[i]] = {}`), then apply `upd`
to the final node and rebuild.  A defined non-object on the path makes
the subsequent property write throw a `TypeError`. -/
def descendUpdate (upd : Fields → Except JsErr Fields) :
    List String → Fields → Except JsErr Fields
  | [], s => upd s
  | k :: rest, s =>
    match getF s k with
    | .undefined =>
      match descendUpdate upd rest [] with
      | .error e => .error e
      | .ok sub => .ok (setF s k (.obj sub))
    | .obj sub =>
      match descendUpdate upd rest sub with
      | .error e => .error e
      | .ok sub2 => .ok (setF s k (.obj sub2))
    | _ => .error (.typeError "cannot create property on a non-object")

/-- Apply every nested traverser in insertion order
(actions.ts lines 288-306).  The traversals and leaf updates of distinct
parent paths touch distinct positions when selectors are conflict-free,
making the sequential fold equivalent to the source's awaited
`Promise.all`. -/
def applyTraversers (action : Option JsAction) :
    List (List String × List (String × Slot)) → Fields → Except JsErr Fields
  | [], s => .ok s
  | (path, m) :: rest, s =>
    match descendUpdate (applyLeaves action m) path s with
    | .error e => .error e
    | .ok s2 => applyTraversers action rest s2

/-- The single combined action handler returned by
`ActionsRegistry.createActionHandler` (actions.ts lines 271-309): default
the state to an empty object when undefined, update every root entry,
then every nested traverser, and return the updated state object. -/
def runActionHandler (regs : List Reg) (state : JsVal)
    (action : Option JsAction) : Except JsErr JsVal :=
  let t := buildActionTree regs
  let s0 : Except JsErr Fields :=
    match state with
    | .undefined => .ok []
    | .obj fs => .ok fs
    | _ => .error (.typeError "state is not an object")
  match s0 with
  | .error e => .error e
  | .ok s0 =>
    match applyLeaves action t.root s0 with
    | .error e => .error e
    | .ok s1 =>
      match applyTraversers action t.nested s1 with
      | .error e => .error e
      | .ok s2 => .ok (.obj s2)

/-! ## The store and its dispatch engine (`src/unnamed/part_000`) -/

/-- An observable event of the dispatch engine, in order of occurrence:
a value published through the root observable (`this._state = ...`, the
observable's `next`), a side-effect callback invocation (with the value
it received as its `state`), a side-effect callback throwing, and the
resolution of the promise returned to a dispatch caller. -/
inductive Ev where
  | publish (v : JsVal)
  | effectRun (ty : String) (idx : Nat) (received : JsVal)
  | effectThrew (ty : String) (idx : Nat)
  | resolve (callId : Nat)

/-- A registered side-effect callback, described by its observable
behavior: given the value passed as its (read-only wrapped) `state`, the
dispatch calls it makes before returning, and whether it then throws.
The `Getter` read-only wrapper lives in a module outside `src/`;
modelled from the spec: a read-only view of the wrapped value, so the
callback simply receives the value itself. -/
structure SEff where
  run : JsVal → List JsAction × Bool

/-- The side-effect table `{[actionType]: ISideEffectHandler[]}`. -/
abbrev SideEffects := List (String × List SEff)

/-- The mutable state of a `Store`'s dispatch engine.  `published` is
the current value of the root observable (the module holding it is
outside `src/`; modelled from the spec: a cell with get/set+notify).
`pends.get i` records the base state and action of the un-awaited
`_actionHandler` promise published as `JsVal.pending i`: store.ts
assigns `this._state = this._actionHandler({...})` without `await`
(lines 54 and 140), so the promise object itself is published and the
reducer computation it stands for is never awaited by the engine. -/
structure Engine where
  published : JsVal
  pends : List (JsVal × Option JsAction)
  isDispatching : Bool
  queue : List (Nat × JsAction)
  trace : List Ev
  nextCall : Nat

/-- A fresh engine before `init`: the observable's initial value is
undefined. -/
def emptyEngine : Engine := ⟨.undefined, [], false, [], [], 0⟩

/-- `store.init(initialState)` (store.ts lines 53-60): publish the
un-awaited promise of `_actionHandler({state: initialState,
action: undefined, ...})`. -/
def initStore (initialState : JsVal) (e : Engine) : Engine :=
  let pid := e.pends.length
  { e with
    pends := e.pends ++ [(initialState, none)]
    published := .pending pid
    trace := e.trace ++ [Ev.publish (.pending pid)] }

/-- Queue the dispatch calls made inside a side-effect callback: the
engine is mid-dispatch, so each call takes the queueing branch
(store.ts lines 126-134) and is assigned a fresh caller id. -/
def enqueueEmits (e : Engine) : List JsAction → Engine
  | [] => e
  | a :: rest =>
    enqueueEmits
      { e with queue := e.queue ++ [(e.nextCall, a)], nextCall := e.nextCall + 1 }
      rest

/-- Run the side-effect callbacks registered for the dispatched type, in
registration order (store.ts lines 146-155, a `forEach`).  Each receives
the store's current `value` — the just-published pending promise.  A
synchronous throw aborts the `forEach` (remaining callbacks are skipped)
and, because nothing catches it inside the executor, leaves
`_isDispatching` set and the dispatch promise unresolved; the returned
flag records that. -/
def runSideEffects (ty : String) (received : JsVal) :
    Nat → List SEff → Engine → Engine × Bool
  | _, [], e => (e, false)
  | idx, f :: rest, e =>
    let res := f.run received
    let e1 := { e with trace := e.trace ++ [Ev.effectRun ty idx received] }
    let e2 := enqueueEmits e1 res.1
    if res.2 then ({ e2 with trace := e2.trace ++ [Ev.effectThrew ty idx] }, true)
    else runSideEffects ty received (idx + 1) rest e2

/-- Lines 137-144 of store.ts: set `_isDispatching`, record the
un-awaited reducer promise (its base is the currently published value)
and publish the promise object in its place. -/
def publishTransition (e : Engine) (a : JsAction) : Engine :=
  let e1 := { e with isDispatching := true }
  let pid := e1.pends.length
  { e1 with
    pends := e1.pends ++ [(e1.published, some a)]
    published := .pending pid
    trace := e1.trace ++ [Ev.publish (.pending pid)] }

/-- The synchronous executor body of a non-queued dispatch
(store.ts lines 136-158): publish the un-awaited reducer promise, run
matching side effects, and — unless one of them threw — clear
`_isDispatching` and resolve the caller.  The `Bool` records whether a
side effect threw (aborting the executor). -/
def runExecutor (effects : SideEffects) (e : Engine) (cid : Nat)
    (a : JsAction) : Engine × Bool :=
  let e2 := publishTransition e a
  let matching := (getA effects a.type).getD []
  let se := runSideEffects a.type e2.published 0 matching e2
  if se.2 then (se.1, true)
  else
    ({ se.1 with
      isDispatching := false
      trace := se.1.trace ++ [Ev.resolve cid] }, false)

/-- `Store.dispatch` on an action object (store.ts lines 125-166).
If a dispatch is in flight the call is queued (lines 126-134).
Otherwise the executor runs synchronously (`runExecutor`); a throwing
side effect ends it early with `_isDispatching` still `true` and the
caller never resolved; otherwise the queue head is flushed, re-entering
`dispatch` (lines 161-165) — `fuel` bounds that recursion, and every
scenario below uses ample fuel. -/
def dispatchObj (effects : SideEffects) :
    Nat → Engine → Nat → JsAction → Engine
  | fuel, e, cid, a =>
    if e.isDispatching then { e with queue := e.queue ++ [(cid, a)] }
    else
      match runExecutor effects e cid a with
      | (e2, true) => e2
      | (e3, false) =>
        match e3.queue with
        | [] => e3
        | (c, act) :: rest =>
          match fuel with
          | 0 => e3
          | fuel + 1 => dispatchObj effects fuel { e3 with queue := rest } c act

/-- An external dispatch call: it is handed the next fresh caller id. -/
def dispatchCall (effects : SideEffects) (fuel : Nat) (e : Engine)
    (a : JsAction) : Engine :=
  dispatchObj effects fuel { e with nextCall := e.nextCall + 1 } e.nextCall a

/-- Did the caller with this id get its dispatch promise resolved? -/
def resolvedIn (tr : List Ev) (cid : Nat) : Bool :=
  tr.any fun ev =>
    match ev with
    | .resolve c => c = cid
    | _ => false

/-! ## Named dispatch (`Store` constructor, store.ts lines 17-51) -/

/-- A value of the `actionNameToType` map handed to the `Store`
constructor.  The constructor's signature declares
`{ [name: string]: string[] }`, but `ActionsRegistry.createStore` passes
its `_actionNames` field, declared `{ [name: string]: string }` — so at
runtime the value can be a plain string. -/
inductive NameMapVal where
  | str (s : String)
  | arr (l : List String)

/-- A dispatcher stored in `this._actions[name]` (store.ts lines 36-48):
either the single-type wrapper `(payload) => dispatch({type, payload})`
or the multi-type wrapper `(actionType, payload)` that validates the
type against the registered set. -/
inductive ActionDispatcher where
  | single (ty : String)
  | multi (validTypes : List String)

/-- JS property-key coercion, used when a dispatched type is looked up in
`validActionTypes[actionType]`. -/
def keyOf : JsVal → String
  | .str s => s
  | .int n => toString n
  | .nan => "NaN"
  | .undefined => "undefined"
  | .obj _ => "[object Object]"
  | .pending _ => "[object Promise]"

/-- The dispatcher-building loop of the `Store` constructor (store.ts
lines 25-50), one name at a time.  `actionTypes.length > 1` and
`actionTypes.reduce(...)` are evaluated on whatever value is present:
on a string of length greater than one, `.reduce` is not a function and
a `TypeError` is thrown out of the constructor; on a string of length at
most one, `actionTypes[0]` is its first character (or undefined when
empty, a case no registration produces — modelled as the empty
string). -/
def mkActions : List (String × NameMapVal) →
    Except JsErr (List (String × ActionDispatcher))
  | [] => .ok []
  | (name, v) :: rest => do
    let build : Except JsErr ActionDispatcher :=
      match v with
      | .str s =>
        if s.length > 1 then
          .error (.typeError "actionTypes.reduce is not a function")
        else .ok (.single s)
      | .arr l =>
        if l.length > 1 then .ok (.multi l) else .ok (.single (l.headD ""))
    let d ← build
    let ds ← mkActions rest
    .ok ((name, d) :: ds)

/-- `Store.dispatch` called with a string name (store.ts lines 115-123):
look the name up in `this._actions`; an absent name throws
`action="..." does not exist`; a multi-type dispatcher first validates
the supplied type against its registered set and throws
`invalid action type: ...` when it is not in the set; otherwise the
wrapped object dispatch runs and the await chain surfaces its outcome to
this caller. -/
def dispatchName (effects : SideEffects) (fuel : Nat) (e : Engine)
    (actions : List (String × ActionDispatcher)) (name : String)
    (arg2 arg3 : JsVal) : Except JsErr Engine :=
  match getA actions name with
  | none => .error (.error ("action=\"" ++ name ++ "\" does not exist"))
  | some (.single ty) => .ok (dispatchCall effects fuel e ⟨ty, arg2⟩)
  | some (.multi validTypes) =>
    let ty := keyOf arg2
    if validTypes.contains ty then .ok (dispatchCall effects fuel e ⟨ty, arg3⟩)
    else
      .error (.error
        ("invalid action type: actionName=" ++ name ++ "; type=" ++ ty))

/-! ## The actions registry (`src/lib/actions.ts`, lines 87-325) -/

/-- The registry's accumulated state: `_actionNames` maps each name to a
single type **string** (actions.ts line 88), `_actionTypes` tracks used
tags, `_actionTypeToHandlers` keeps the registration list in order, and
`_sideEffects` groups side effects by type tag. -/
structure ActionsRegistry where
  actionNames : List (String × String)
  actionTypes : List String
  actionTypeToHandlers : List Reg
  sideEffects : SideEffects

/-- A fresh registry. -/
def ActionsRegistry.empty : ActionsRegistry := ⟨[], [], [], []⟩

/-- `ActionsRegistry.register(name, actionType, actionHandler)`
(actions.ts lines 106-149, with an explicit type tag): duplicate names
are rejected (`this._actionNames[name]` truthiness, so an empty-string
type does not count), then the name-to-type association, the type tag
and the registration are recorded. -/
def ActionsRegistry.register (reg : ActionsRegistry) (name ty sel : String)
    (h : HandlerFn) : Except JsErr ActionsRegistry :=
  if (getA reg.actionNames name).getD "" ≠ "" then
    .error (.error ("action with name: \"" ++ name ++ "\" already exists"))
  else
    .ok { reg with
      actionNames := setA reg.actionNames name ty
      actionTypes := reg.actionTypes ++ [ty]
      actionTypeToHandlers := reg.actionTypeToHandlers ++ [⟨name, ty, sel, h⟩] }

/-- `ActionsRegistry.sideEffect(s)` (actions.ts lines 156-162): append
to the list registered for the tag. -/
def ActionsRegistry.addSideEffect (reg : ActionsRegistry) (ty : String)
    (f : SEff) : ActionsRegistry :=
  { reg with
    sideEffects := setA reg.sideEffects ty ((getA reg.sideEffects ty).getD [] ++ [f]) }

/-- `ActionsRegistry.createStore(initialState)` (actions.ts lines
316-324): construct the `Store` — whose constructor builds the named
dispatchers from `_actionNames`, a map of plain strings — and run
`init`.  A constructor `TypeError` rejects `createStore`. -/
def ActionsRegistry.createStore (reg : ActionsRegistry) (initialState : JsVal) :
    Except JsErr (List (String × ActionDispatcher) × Engine) := do
  let acts ← mkActions (reg.actionNames.map fun p => (p.1, NameMapVal.str p.2))
  .ok (acts, initStore initialState emptyEngine)

/-! ## Concrete material for the spec's running example -/

/-- JS `+` on the operand shapes the examples produce: numbers add,
strings concatenate, and an `undefined` or `NaN` operand yields `NaN`
(in particular `0 + undefined` is `NaN`). -/
def jsAdd : JsVal → JsVal → JsVal
  | .int a, .int b => .int (a + b)
  | .str a, .str b => .str (a ++ b)
  | _, _ => .nan

/-- The example handler `({state = 0, payload}) => state + payload`. -/
def incHandler : HandlerFn :=
  fun s p => .ok (jsAdd (if isUndefined s then .int 0 else s) p)

/-- The example registration: name `increment`, type `INC`, selector
`counter`. -/
def regInc : Reg := ⟨"increment", "INC", "counter", incHandler⟩

/-! ## Predicates on state trees -/

/-- Resolve a path of intermediate nodes: descend through object values,
failing on a missing or non-object node. -/
def nodeAt : Fields → List String → Option Fields
  | s, [] => some s
  | s, q :: rest =>
    match getF s q with
    | .obj sub => nodeAt sub rest
    | _ => none

/-- The node at parent path `d` exists as an object and carries the key
`k` (JS `k in obj`, regardless of the stored value). -/
def hasNodeF (s : Fields) (d : List String) (k : String) : Bool :=
  match nodeAt s d with
  | some sub => hasKey sub k
  | none => false

/-- `hasNodeF` on a whole state value. -/
def hasNode : JsVal → List String → String → Bool
  | .obj fs, d, k => hasNodeF fs d k
  | _, _, _ => false

/-- Along a selector path, every intermediate node is an object and the
leaf value is defined (not JS `undefined`). -/
def pathDefined : Fields → List String → Bool
  | _, [] => true
  | s, [k] => !(isUndefined (getF s k))
  | s, q :: k2 :: rest =>
    match getF s q with
    | .obj sub => pathDefined sub (k2 :: rest)
    | _ => false

/-- Path order: `pathLeq q p` holds when `q` is an initial segment of
`p`, i.e. the node named by `q` lies on the way to the node named by
`p` (or is that node). -/
def pathLeq : List String → List String → Bool
  | [], _ => true
  | _ :: _, [] => false
  | a :: as, b :: bs => a = b && pathLeq as bs

/-- No selector path of the list is an initial segment of (in
particular, equal to) another one. -/
def conflictFree : List (List String) → Bool
  | [] => true
  | p :: ps =>
    (ps.all fun q => !(pathLeq p q) && !(pathLeq q p)) && conflictFree ps

/-- Soundness of the built action tree relative to the registrations:
every root entry and every nested leaf position comes from a
registration with exactly that selector path, and nested leaf maps are
never empty. -/
def treeSound (regs : List Reg) (t : ActionTree) : Prop :=
  (∀ k sl, (k, sl) ∈ t.root → ∃ r ∈ regs, selPath r = [k])
  ∧ (∀ d m, (d, m) ∈ t.nested →
      m ≠ [] ∧ ∀ k sl, (k, sl) ∈ m → d ≠ [] ∧ ∃ r ∈ regs, selPath r = d ++ [k])

/-- Coverage of the built action tree: every multi-segment registration
owns a leaf position under its parent path. -/
def treeCovers (regs : List Reg) (t : ActionTree) : Prop :=
  ∀ r ∈ regs, ∀ d k, selPath r = d ++ [k] → d ≠ [] →
    ∃ m, getA t.nested d = some m ∧ (getA m k).isSome = true

/-- Slot identity of the built action tree: with pairwise-distinct
selector paths no collision branch ever runs, so every stored slot is
the adapted handler of the registration owning that position. -/
def treeFn (regs : List Reg) (t : ActionTree) : Prop :=
  (∀ k sl, (k, sl) ∈ t.root → ∃ r ∈ regs, sl = .fn r ∧ selPath r = [k])
  ∧ (∀ d m, (d, m) ∈ t.nested → ∀ k sl, (k, sl) ∈ m →
      ∃ r ∈ regs, sl = .fn r ∧ selPath r = d ++ [k])

/-- All selector paths of the list are pairwise distinct. -/
def allDistinct : List (List String) → Bool
  | [] => true
  | p :: ps => decide (p ∉ ps) && allDistinct ps

/-! ## Concrete scenario material -/

/-- A side effect that neither dispatches nor throws. -/
def noopEff : SEff := ⟨fun _ => ([], false)⟩

/-- A side effect that throws synchronously. -/
def throwEff : SEff := ⟨fun _ => ([], true)⟩

/-- A side effect that, when triggered by the first dispatched
transition (it receives the store value published for it, the promise
`pending 1`), dispatches a second `INC` transition with payload 3. -/
def emitEff : SEff := ⟨fun v =>
  match v with
  | .pending 1 => ([⟨"INC", .int 3⟩], false)
  | _ => ([], false)⟩

/-- A second registration at the same selector `counter` under the same
type tag `INC`. -/
def regDouble : Reg := ⟨"double", "INC", "counter", fun s _ => .ok (jsAdd s s)⟩

/-- A registration whose handler always throws. -/
def regThrow : Reg := ⟨"boom", "BOOM", "counter", fun _ _ => .error (.error "boom")⟩

/-- A registration at the multi-segment selector `a.b.c`. -/
def regDeep : Reg :=
  ⟨"deep", "T1", "a.b.c", fun s _ => .ok (if isUndefined s then .int 0 else .int 7)⟩

/-- A registration at `a.b`, a proper prefix of `regDeep`'s selector. -/
def regShallow : Reg :=
  ⟨"shallow", "T2", "a.b", fun s _ => .ok (if isUndefined s then .obj [] else .int 42)⟩

/-- A store engine immediately after `createStore`'s `init` with no
initial state: the published value is the un-awaited `init` promise. -/
def storeStart : Engine := initStore .undefined emptyEngine

/-- The engine after one plain `dispatch({type: "INC", payload: 5})`
with no side effects registered. -/
def storePlainDispatch : Engine := dispatchCall [] 9 storeStart ⟨"INC", .int 5⟩

/-- The engine after one `INC` dispatch with two side effects registered
for `INC`. -/
def storeTwoEffects : Engine :=
  dispatchCall [("INC", [noopEff, noopEff])] 9 storeStart ⟨"INC", .int 5⟩

/-- The engine after one `INC` dispatch whose side effect re-entrantly
dispatches a second `INC` transition. -/
def storeReentrant : Engine :=
  dispatchCall [("INC", [emitEff])] 9 storeStart ⟨"INC", .int 5⟩

/-- The engine after one `INC` dispatch whose side effect throws. -/
def storeThrowingEffect : Engine :=
  dispatchCall [("INC", [throwEff])] 9 storeStart ⟨"INC", .int 5⟩

/-- Does a trace ever publish a plain object (an actual state tree
snapshot, as opposed to a pending promise)? -/
def publishesNoSnapshot (tr : List Ev) : Bool :=
  tr.all fun ev =>
    match ev with
    | .publish (.obj _) => false
    | _ => true

/-! ## Association-list lemmas -/

theorem getA_setA_self {κ α : Type} [DecidableEq κ] (l : List (κ × α)) (k : κ)
    (v : α) : getA (setA l k v) k = some v := by
  induction l with
  | nil => simp [getA, setA]
  | cons hd tl ih =>
    obtain ⟨a, b⟩ := hd
    by_cases h : a = k
    · subst h; simp [setA, getA]
    · simp [setA, h, getA, ih]

theorem getA_setA_ne {κ α : Type} [DecidableEq κ] (l : List (κ × α))
    (k k2 : κ) (v : α) (h : k2 ≠ k) : getA (setA l k v) k2 = getA l k2 := by
  induction l with
  | nil => simp [getA, setA, Ne.symm h]
  | cons hd tl ih =>
    obtain ⟨a, b⟩ := hd
    by_cases h2 : a = k
    · subst h2; simp [setA, getA, Ne.symm h]
    · simp [setA, h2, getA, ih]

theorem getA_mem {κ α : Type} [DecidableEq κ] (l : List (κ × α)) (k : κ)
    (v : α) (h : getA l k = some v) : (k, v) ∈ l := by
  induction l with
  | nil => simp [getA] at h
  | cons hd tl ih =>
    obtain ⟨a, b⟩ := hd
    by_cases h2 : a = k
    · subst h2
      simp [getA] at h
      subst h
      exact List.mem_cons_self _ _
    · simp [getA, h2] at h
      exact List.mem_cons_of_mem _ (ih h)

theorem mem_setA {κ α : Type} [DecidableEq κ] (l : List (κ × α)) (k : κ)
    (v : α) (x : κ × α) (h : x ∈ setA l k v) : x ∈ l ∨ x = (k, v) := by
  induction l with
  | nil => simp [setA] at h; right; exact h
  | cons hd tl ih =>
    obtain ⟨a, b⟩ := hd
    by_cases h2 : a = k
    · subst h2
      simp [setA] at h
      rcases h with h | h
      · right; simp [h]
      · left; exact List.mem_cons_of_mem _ h
    · simp [setA, h2] at h
      rcases h with h | h
      · left; simp [h]
      · rcases ih h with h3 | h3
        · left; exact List.mem_cons_of_mem _ h3
        · right; exact h3

theorem isSome_getA_setA {κ α : Type} [DecidableEq κ] (l : List (κ × α))
    (k k2 : κ) (v : α) (h : (getA l k2).isSome = true) :
    (getA (setA l k v) k2).isSome = true := by
  by_cases h2 : k2 = k
  · rw [h2, getA_setA_self]; rfl
  · rw [getA_setA_ne l k k2 v h2]; exact h

theorem setA_getA_id {κ α : Type} [DecidableEq κ] (l : List (κ × α)) (k : κ)
    (v : α) (h : getA l k = some v) : setA l k v = l := by
  induction l with
  | nil => simp [getA] at h
  | cons hd tl ih =>
    obtain ⟨a, b⟩ := hd
    by_cases h2 : a = k
    · subst h2
      simp [getA] at h
      subst h
      simp [setA]
    · simp [getA, h2] at h
      simp [setA, h2, ih h]

/-! ## Field-level corollaries -/

theorem getF_setF_self (s : Fields) (k : String) (v : JsVal) :
    getF (setF s k v) k = v := by
  simp [getF, setF, getA_setA_self]

theorem getF_setF_ne (s : Fields) (k k2 : String) (v : JsVal) (h : k2 ≠ k) :
    getF (setF s k v) k2 = getF s k2 := by
  simp [getF, setF, getA_setA_ne s k k2 v h]

theorem hasKey_setF_self (s : Fields) (k : String) (v : JsVal) :
    hasKey (setF s k v) k = true := by
  simp [hasKey, setF, getA_setA_self]

theorem hasKey_setF_mono (s : Fields) (k k2 : String) (v : JsVal)
    (h : hasKey s k2 = true) : hasKey (setF s k v) k2 = true :=
  isSome_getA_setA s k k2 v h

theorem getA_of_getF (s : Fields) (k : String) (h : isUndefined (getF s k) = false) :
    getA s k = some (getF s k) := by
  unfold getF at h ⊢
  cases h2 : getA s k with
  | none => rw [h2] at h; simp [isUndefined] at h
  | some v => simp [h2]

theorem setF_getF_id (s : Fields) (k : String)
    (h : isUndefined (getF s k) = false) : setF s k (getF s k) = s :=
  setA_getA_id s k (getF s k) (getA_of_getF s k h)

/-! ## Path-order lemmas -/

theorem pathLeq_refl (p : List String) : pathLeq p p = true := by
  induction p with
  | nil => rfl
  | cons a as ih => simp [pathLeq, ih]

theorem pathLeq_cons₂ (a : String) (p q : List String) :
    pathLeq (a :: p) (a :: q) = pathLeq p q := by
  simp [pathLeq]

theorem conflictFree_spec : ∀ (l : List (List String)),
    conflictFree l = true →
    ∀ p ∈ l, ∀ q ∈ l, pathLeq p q = true → p = q := by
  intro l
  induction l with
  | nil => intro _ p hp; simp at hp
  | cons hd tl ih =>
    intro h p hp q hq hpq
    simp [conflictFree, List.all_eq_true] at h
    rcases h with ⟨hall, htl⟩
    rcases List.mem_cons.mp hp with hp | hp <;>
      rcases List.mem_cons.mp hq with hq | hq
    · rw [hp, hq]
    · exact absurd hpq (by rw [hp]; simpa using (hall q hq).1)
    · exact absurd hpq (by rw [hq]; simpa using (hall p hp).2)
    · exact ih htl p hp q hq hpq

/-! ## Reducer-application lemmas -/

theorem hasNodeF_nil (s : Fields) (k : String) :
    hasNodeF s [] k = hasKey s k := rfl

theorem hasNodeF_cons (s : Fields) (q : String) (d : List String) (k : String) :
    hasNodeF s (q :: d) k
      = (match getF s q with
         | .obj sub => hasNodeF sub d k
         | _ => false) := by
  cases hg : getF s q <;> simp [hasNodeF, nodeAt, hg]

/-- Writing one field preserves an existing node whose path does not
start at the written key (or is exactly that key). -/
theorem hasNodeF_setF (s : Fields) (d : List String) (k k2 : String)
    (v : JsVal) (h : hasNodeF s d k = true)
    (hne : ∀ q d2, d = q :: d2 → k2 ≠ q) :
    hasNodeF (setF s k2 v) d k = true := by
  cases d with
  | nil =>
    rw [hasNodeF_nil] at h ⊢
    exact hasKey_setF_mono s k2 k v h
  | cons q d2 =>
    have hq : k2 ≠ q := hne q d2 rfl
    rw [hasNodeF_cons] at h ⊢
    rw [getF_setF_ne s k2 q v (Ne.symm hq)]
    exact h

theorem applyLeaves_hasKey_mono (action : Option JsAction) :
    ∀ (m : List (String × Slot)) (s s2 : Fields),
      applyLeaves action m s = .ok s2 →
      ∀ k, hasKey s k = true → hasKey s2 k = true := by
  intro m
  induction m with
  | nil =>
    intro s s2 h k hk
    simp only [applyLeaves] at h
    cases h
    exact hk
  | cons hd tl ih =>
    intro s s2 h k hk
    obtain ⟨k0, sl0⟩ := hd
    simp only [applyLeaves] at h
    split at h
    · exact absurd h (by simp)
    · rename_i v hv
      exact ih _ _ h k (hasKey_setF_mono s k0 k v hk)

theorem applyLeaves_sets (action : Option JsAction) :
    ∀ (m : List (String × Slot)) (s s2 : Fields),
      applyLeaves action m s = .ok s2 →
      ∀ k sl, (k, sl) ∈ m → hasKey s2 k = true := by
  intro m
  induction m with
  | nil =>
    intro s s2 h k sl hk
    simp at hk
  | cons hd tl ih =>
    intro s s2 h k sl hk
    obtain ⟨k0, sl0⟩ := hd
    simp only [applyLeaves] at h
    split at h
    · exact absurd h (by simp)
    · rename_i v hv
      rcases List.mem_cons.mp hk with hk | hk
      · have hk0 : k = k0 := by
          have := congrArg Prod.fst hk
          simpa using this
        subst hk0
        exact applyLeaves_hasKey_mono action tl _ s2 h k
          (hasKey_setF_self s k v)
      · exact ih _ _ h k sl hk

/-- Leaf updates preserve an existing node whose path does not start at
any of the written keys (unless the node is a root-level key, which a
write can only re-assert). -/
theorem hasNodeF_applyLeaves (action : Option JsAction) :
    ∀ (m : List (String × Slot)) (s s2 : Fields) (d : List String)
      (k : String),
      hasNodeF s d k = true → applyLeaves action m s = .ok s2 →
      (∀ k2 sl, (k2, sl) ∈ m → ∀ q d2, d = q :: d2 → k2 ≠ q) →
      hasNodeF s2 d k = true := by
  intro m
  induction m with
  | nil =>
    intro s s2 d k h hap _
    simp only [applyLeaves] at hap
    cases hap
    exact h
  | cons hd tl ih =>
    intro s s2 d k h hap hcond
    obtain ⟨k0, sl0⟩ := hd
    simp only [applyLeaves] at hap
    split at hap
    · exact absurd hap (by simp)
    · rename_i v hv
      refine ih _ s2 d k ?_ hap ?_
      · exact hasNodeF_setF s d k k0 v h
          (fun q d2 hd2 => hcond k0 sl0 (List.mem_cons_self _ _) q d2 hd2)
      · exact fun k2 sl hmem q d2 hd2 =>
          hcond k2 sl (List.mem_cons_of_mem _ hmem) q d2 hd2

/-- After a traverser's walk-and-update succeeds, every key of its leaf
map is present at the end of its parent path. -/
theorem descendUpdate_materializes (action : Option JsAction)
    (m : List (String × Slot)) :
    ∀ (dt : List String) (s s2 : Fields),
      descendUpdate (applyLeaves action m) dt s = .ok s2 →
      ∀ k sl, (k, sl) ∈ m → hasNodeF s2 dt k = true := by
  intro dt
  induction dt with
  | nil =>
    intro s s2 h k sl hk
    rw [hasNodeF_nil]
    exact applyLeaves_sets action m s s2 h k sl hk
  | cons q dt2 ih =>
    intro s s2 h k sl hk
    simp only [descendUpdate] at h
    split at h
    · split at h
      · exact absurd h (by simp)
      · rename_i sub hsub
        cases h
        rw [hasNodeF_cons, getF_setF_self]
        exact ih [] sub hsub k sl hk
    · rename_i sub0 hsub0
      split at h
      · exact absurd h (by simp)
      · rename_i sub hsub
        cases h
        rw [hasNodeF_cons, getF_setF_self]
        exact ih sub0 sub hsub k sl hk
    · exact absurd h (by simp)

/-- One traverser preserves an existing node, provided none of its write
positions is a strict initial segment of the node's path. -/
theorem hasNodeF_descendUpdate (action : Option JsAction)
    (m : List (String × Slot)) :
    ∀ (dt d : List String) (k : String) (s s2 : Fields),
      hasNodeF s d k = true →
      descendUpdate (applyLeaves action m) dt s = .ok s2 →
      (∀ k2 sl, (k2, sl) ∈ m →
        pathLeq (dt ++ [k2]) (d ++ [k]) = true → dt ++ [k2] = d ++ [k]) →
      hasNodeF s2 d k = true := by
  intro dt
  induction dt with
  | nil =>
    intro d k s s2 h hap hcond
    refine hasNodeF_applyLeaves action m s s2 d k h hap ?_
    intro k2 sl hmem q d2 hd2 hk2
    subst hk2
    subst hd2
    have hpre : pathLeq ([] ++ [k2]) ((k2 :: d2) ++ [k]) = true := by
      simp [pathLeq]
    have hlen := congrArg List.length (hcond k2 sl hmem hpre)
    simp at hlen
  | cons q dt2 ih =>
    intro d k s s2 h hdes hcond
    simp only [descendUpdate] at hdes
    split at hdes
    · rename_i hundef
      split at hdes
      · exact absurd hdes (by simp)
      · rename_i sub hsub
        cases hdes
        cases d with
        | nil =>
          rw [hasNodeF_nil] at h ⊢
          exact hasKey_setF_mono s q k (.obj sub) h
        | cons q2 d2 =>
          rw [hasNodeF_cons] at h
          by_cases hq : q2 = q
          · subst hq
            rw [hundef] at h
            simp at h
          · rw [hasNodeF_cons, getF_setF_ne s q q2 (.obj sub) hq]
            exact h
    · rename_i sub0 hsub0
      split at hdes
      · exact absurd hdes (by simp)
      · rename_i sub hsub
        cases hdes
        cases d with
        | nil =>
          rw [hasNodeF_nil] at h ⊢
          exact hasKey_setF_mono s q k (.obj sub) h
        | cons q2 d2 =>
          rw [hasNodeF_cons] at h
          by_cases hq : q2 = q
          · rw [hq] at h
            rw [hsub0] at h
            rw [hasNodeF_cons, hq, getF_setF_self]
            refine ih d2 k sub0 sub h hsub ?_
            intro k2 sl hmem hpre
            have hpre2 : pathLeq ((q :: dt2) ++ [k2]) ((q2 :: d2) ++ [k]) = true := by
              simpa [pathLeq, hq] using hpre
            have heq := hcond k2 sl hmem hpre2
            simp at heq
            exact heq.2
          · rw [hasNodeF_cons, getF_setF_ne s q q2 (.obj sub) hq]
            exact h
    · exact absurd hdes (by simp)

/-- The whole traverser pass preserves an existing node, provided no
write position of any traverser is a strict initial segment of the
node's path. -/
theorem applyTraversers_hasNodeF (action : Option JsAction) :
    ∀ (ts : List (List String × List (String × Slot))) (s s2 : Fields)
      (d : List String) (k : String),
      hasNodeF s d k = true → applyTraversers action ts s = .ok s2 →
      (∀ dt m, (dt, m) ∈ ts → ∀ k2 sl, (k2, sl) ∈ m →
        pathLeq (dt ++ [k2]) (d ++ [k]) = true → dt ++ [k2] = d ++ [k]) →
      hasNodeF s2 d k = true := by
  intro ts
  induction ts with
  | nil =>
    intro s s2 d k h hap _
    simp only [applyTraversers] at hap
    cases hap
    exact h
  | cons hd tl ih =>
    intro s s2 d k h hap hcond
    obtain ⟨dt0, m0⟩ := hd
    simp only [applyTraversers] at hap
    split at hap
    · exact absurd hap (by simp)
    · rename_i s1 hs1
      refine ih s1 s2 d k ?_ hap ?_
      · exact hasNodeF_descendUpdate action m0 dt0 d k s s1 h hs1
          (fun k2 sl hmem => hcond dt0 m0 (List.mem_cons_self _ _) k2 sl hmem)
      · exact fun dt m hmem k2 sl hmem2 =>
          hcond dt m (List.mem_cons_of_mem _ hmem) k2 sl hmem2

/-- After the whole traverser pass succeeds, every leaf position of
every traverser is present — provided no write position is a strict
initial segment of another (which holds for conflict-free selector
sets). -/
theorem applyTraversers_materialize (action : Option JsAction) :
    ∀ (ts : List (List String × List (String × Slot))) (s s2 : Fields),
      applyTraversers action ts s = .ok s2 →
      (∀ dt m, (dt, m) ∈ ts → ∀ k sl, (k, sl) ∈ m →
        ∀ dt2 m2, (dt2, m2) ∈ ts → ∀ k2 sl2, (k2, sl2) ∈ m2 →
          pathLeq (dt2 ++ [k2]) (dt ++ [k]) = true →
          dt2 ++ [k2] = dt ++ [k]) →
      ∀ dt m, (dt, m) ∈ ts → ∀ k sl, (k, sl) ∈ m →
        hasNodeF s2 dt k = true := by
  intro ts
  induction ts with
  | nil =>
    intro s s2 _ _ dt m hmem
    simp at hmem
  | cons hd tl ih =>
    intro s s2 hap hcond dt m hmem k sl hmem2
    obtain ⟨dt0, m0⟩ := hd
    simp only [applyTraversers] at hap
    split at hap
    · exact absurd hap (by simp)
    · rename_i s1 hs1
      rcases List.mem_cons.mp hmem with hmem | hmem
      · have hdt : dt = dt0 ∧ m = m0 := by
          constructor
          · exact congrArg Prod.fst hmem
          · exact congrArg Prod.snd hmem
        obtain ⟨hdt, hm⟩ := hdt
        subst hdt
        subst hm
        have hest : hasNodeF s1 dt k = true :=
          descendUpdate_materializes action m dt s s1 hs1 k sl hmem2
        refine applyTraversers_hasNodeF action tl s1 s2 dt k hest hap ?_
        intro dt2 m2 hmem3 k2 sl2 hmem4 hpre
        exact hcond dt m (List.mem_cons_self _ _) k sl hmem2 dt2 m2
          (List.mem_cons_of_mem _ hmem3) k2 sl2 hmem4 hpre
      · refine ih s1 s2 hap ?_ dt m hmem k sl hmem2
        intro dta ma hma ka sla hsla dtb mb hmb kb slb hslb hpre
        exact hcond dta ma (List.mem_cons_of_mem _ hma) ka sla hsla dtb mb
          (List.mem_cons_of_mem _ hmb) kb slb hslb hpre

/-! ## Action-tree bridging lemmas -/

theorem setA_ne_nil {κ α : Type} [DecidableEq κ] (l : List (κ × α)) (k : κ)
    (v : α) : setA l k v ≠ [] := by
  cases l with
  | nil => simp [setA]
  | cons hd tl =>
    obtain ⟨a, b⟩ := hd
    by_cases h : a = k <;> simp [setA, h]

theorem insertReg_sound (t : ActionTree) (r : Reg) (base : List Reg)
    (h : treeSound base t) : treeSound (base ++ [r]) (insertReg t r) := by
  obtain ⟨hroot, hnested⟩ := h
  have hwk : ∀ (p : List String) (rr : Reg),
      (∃ r0 ∈ base, selPath r0 = p) → ∃ r0 ∈ base ++ [rr], selPath r0 = p :=
    fun p rr ⟨r0, h0, hp⟩ => ⟨r0, List.mem_append_left _ h0, hp⟩
  cases hsp : selPath r with
  | nil =>
    simp only [insertReg, hsp]
    exact ⟨fun k sl hm => hwk [k] r (hroot k sl hm),
      fun d m hm => ⟨(hnested d m hm).1,
        fun k sl hm2 => ⟨((hnested d m hm).2 k sl hm2).1,
          hwk _ r ((hnested d m hm).2 k sl hm2).2⟩⟩⟩
  | cons k1 tl1 =>
    cases tl1 with
    | nil =>
      simp only [insertReg, hsp]
      constructor
      · intro k sl hm
        rcases mem_setA t.root k1 _ (k, sl) hm with hm | hm
        · exact hwk [k] r (hroot k sl hm)
        · have hk : k = k1 := by
            have := congrArg Prod.fst hm
            simpa using this
          subst hk
          exact ⟨r, List.mem_append_right _ (List.mem_cons_self _ _), hsp⟩
      · intro d m hm
        exact ⟨(hnested d m hm).1,
          fun k sl hm2 => ⟨((hnested d m hm).2 k sl hm2).1,
            hwk _ r ((hnested d m hm).2 k sl hm2).2⟩⟩
    | cons k2 rest =>
      simp only [insertReg, hsp]
      constructor
      · exact fun k sl hm => hwk [k] r (hroot k sl hm)
      · intro d m hm
        rcases mem_setA t.nested _ _ (d, m) hm with hm | hm
        · exact ⟨(hnested d m hm).1,
            fun k sl hm2 => ⟨((hnested d m hm).2 k sl hm2).1,
              hwk _ r ((hnested d m hm).2 k sl hm2).2⟩⟩
        · have hd : d = (k1 :: k2 :: rest).dropLast := congrArg Prod.fst hm
          have hm2 : m = setA ((getA t.nested (k1 :: k2 :: rest).dropLast).getD [])
              ((k1 :: k2 :: rest).getLast (by simp))
              (match getA ((getA t.nested (k1 :: k2 :: rest).dropLast).getD [])
                  ((k1 :: k2 :: rest).getLast (by simp)) with
                | none => Slot.fn r
                | some _ => Slot.promiseFn) := by
            have := congrArg Prod.snd hm
            simpa using this
          constructor
          · rw [hm2]; exact setA_ne_nil _ _ _
          · intro k sl hmk
            rw [hm2] at hmk
            have hdne : d ≠ [] := by
              rw [hd]
              have hlen : ((k1 :: k2 :: rest).dropLast).length = rest.length + 1 := by
                simp
              intro hnil
              rw [hnil] at hlen
              simp at hlen
            rcases mem_setA _ _ _ (k, sl) hmk with hmk | hmk
            · -- the key was already in the parent-path's leaf map
              cases hget : getA t.nested (k1 :: k2 :: rest).dropLast with
              | none => rw [hget] at hmk; simp at hmk
              | some mm =>
                rw [hget] at hmk
                simp at hmk
                have hmem := getA_mem t.nested _ mm hget
                refine ⟨hdne, ?_⟩
                have hsound := (hnested _ mm hmem).2 k sl hmk
                rw [hd]
                exact hwk _ r hsound.2
            · have hk : k = (k1 :: k2 :: rest).getLast (by simp) := by
                have := congrArg Prod.fst hmk
                simpa using this
              refine ⟨hdne, r, List.mem_append_right _ (List.mem_cons_self _ _), ?_⟩
              rw [hsp, hd, hk]
              exact (@List.dropLast_append_getLast _ (k1 :: k2 :: rest) (by simp)).symm

theorem foldl_insertReg_sound :
    ∀ (rest : List Reg) (t : ActionTree) (base : List Reg),
      treeSound base t → treeSound (base ++ rest) (rest.foldl insertReg t) := by
  intro rest
  induction rest with
  | nil => intro t base h; simpa using h
  | cons r tl ih =>
    intro t base h
    have h2 := ih (insertReg t r) (base ++ [r]) (insertReg_sound t r base h)
    simpa using h2

theorem buildActionTree_sound (regs : List Reg) :
    treeSound regs (buildActionTree regs) := by
  have h := foldl_insertReg_sound regs ⟨[], []⟩ []
    ⟨fun k sl hm => by simp at hm, fun d m hm => by simp at hm⟩
  simpa [buildActionTree] using h

/-- Inserting a registration never removes an existing leaf position of
the nested map. -/
theorem insertReg_pos_mono (t : ActionTree) (r : Reg) (d : List String)
    (k : String)
    (h : ∃ m, getA t.nested d = some m ∧ (getA m k).isSome = true) :
    ∃ m, getA (insertReg t r).nested d = some m ∧
      (getA m k).isSome = true := by
  obtain ⟨m, hm, hk⟩ := h
  cases hsp : selPath r with
  | nil => simp only [insertReg, hsp]; exact ⟨m, hm, hk⟩
  | cons k1 tl1 =>
    cases tl1 with
    | nil => simp only [insertReg, hsp]; exact ⟨m, hm, hk⟩
    | cons k2 rest =>
      simp only [insertReg, hsp]
      by_cases hd : d = (k1 :: k2 :: rest).dropLast
      · rw [hd] at hm ⊢
        exact ⟨_, getA_setA_self _ _ _, by
          simp only [hm, Option.getD_some]
          exact isSome_getA_setA m _ k _ hk⟩
      · exact ⟨m, by rw [getA_setA_ne t.nested _ d _ hd]; exact hm, hk⟩

theorem insertReg_covers (t : ActionTree) (r : Reg) (base : List Reg)
    (h : treeCovers base t) : treeCovers (base ++ [r]) (insertReg t r) := by
  intro r2 hr2 d k hsel hd
  rcases List.mem_append.mp hr2 with hr2 | hr2
  · exact insertReg_pos_mono t r d k (h r2 hr2 d k hsel hd)
  · have hr2 : r2 = r := by simpa using hr2
    subst hr2
    cases hsp : selPath r2 with
    | nil => rw [hsp] at hsel; exact absurd hsel.symm (by simp [hd])
    | cons k1 tl1 =>
      cases tl1 with
      | nil =>
        rw [hsp] at hsel
        cases d with
        | nil => exact absurd rfl hd
        | cons q d2 =>
          have hlen := congrArg List.length hsel
          simp at hlen
      | cons k2 rest =>
        rw [hsp] at hsel
        have hcat : d ++ [k] = (k1 :: k2 :: rest).dropLast
            ++ [(k1 :: k2 :: rest).getLast (by simp)] := by
          rw [@List.dropLast_append_getLast _ (k1 :: k2 :: rest) (by simp)]
          exact hsel.symm
        have hdk := List.append_inj' hcat (by simp)
        have hd2 : d = (k1 :: k2 :: rest).dropLast := hdk.1
        have hk2 : k = (k1 :: k2 :: rest).getLast (by simp) := by
          simpa using hdk.2
        subst hd2
        subst hk2
        simp only [insertReg, hsp]
        refine ⟨_, getA_setA_self _ _ _, ?_⟩
        rw [getA_setA_self]
        rfl

theorem foldl_insertReg_covers :
    ∀ (rest : List Reg) (t : ActionTree) (base : List Reg),
      treeCovers base t → treeCovers (base ++ rest) (rest.foldl insertReg t) := by
  intro rest
  induction rest with
  | nil => intro t base h; simpa using h
  | cons r tl ih =>
    intro t base h
    have h2 := ih (insertReg t r) (base ++ [r]) (insertReg_covers t r base h)
    simpa using h2

theorem buildActionTree_covers (regs : List Reg) :
    treeCovers regs (buildActionTree regs) := by
  have h := foldl_insertReg_covers regs ⟨[], []⟩ [] (fun r hr => by simp at hr)
  simpa [buildActionTree] using h

/-! ## Distinct-selector bridging: every slot is a plain adapted handler -/

theorem allDistinct_not_mem :
    ∀ (X : List (List String)) (y : List String) (Z : List (List String)),
      allDistinct (X ++ y :: Z) = true → y ∉ X := by
  intro X
  induction X with
  | nil => intro y Z _; simp
  | cons x X2 ih =>
    intro y Z h
    simp only [List.cons_append, allDistinct, Bool.and_eq_true,
      decide_eq_true_eq] at h
    obtain ⟨hx, h2⟩ := h
    intro hy
    rcases List.mem_cons.mp hy with hy | hy
    · rw [← hy] at hx
      exact hx (List.mem_append_right _ (List.mem_cons_self _ _))
    · exact absurd hy (ih y Z h2)

theorem insertReg_fn (t : ActionTree) (r : Reg) (base : List Reg)
    (hsound : treeSound base t) (hfn : treeFn base t)
    (hnew : selPath r ∉ base.map selPath) :
    treeFn (base ++ [r]) (insertReg t r) := by
  obtain ⟨hfr, hfn2⟩ := hfn
  have hwk : ∀ (p : List String) (sl : Slot),
      (∃ r0 ∈ base, sl = Slot.fn r0 ∧ selPath r0 = p) →
      ∃ r0 ∈ base ++ [r], sl = Slot.fn r0 ∧ selPath r0 = p :=
    fun p sl ⟨r0, h0, hq⟩ => ⟨r0, List.mem_append_left _ h0, hq⟩
  cases hsp : selPath r with
  | nil =>
    simp only [insertReg, hsp]
    exact ⟨fun k sl hm => hwk _ _ (hfr k sl hm),
      fun d m hm k sl hm2 => hwk _ _ (hfn2 d m hm k sl hm2)⟩
  | cons k1 tl1 =>
    cases tl1 with
    | nil =>
      simp only [insertReg, hsp]
      refine ⟨?_, fun d m hm k sl hm2 => hwk _ _ (hfn2 d m hm k sl hm2)⟩
      intro k sl hm
      rcases mem_setA _ _ _ (k, sl) hm with hm | hm
      · exact hwk _ _ (hfr k sl hm)
      · have hk : k = k1 := by simpa using congrArg Prod.fst hm
        have hsl := congrArg Prod.snd hm
        simp only at hsl
        cases hget : getA t.root k1 with
        | some sl0 =>
          obtain ⟨r0, hr0, hp0⟩ := hsound.1 k1 sl0 (getA_mem _ _ _ hget)
          exact absurd (by rw [hsp, ← hp0]; exact List.mem_map_of_mem _ hr0) hnew
        | none =>
          rw [hget] at hsl
          simp at hsl
          subst hk
          exact ⟨r, List.mem_append_right _ (List.mem_cons_self _ _), hsl, hsp⟩
    | cons k2 rest =>
      simp only [insertReg, hsp]
      refine ⟨fun k sl hm => hwk _ _ (hfr k sl hm), ?_⟩
      intro d m hm k sl hm2
      rcases mem_setA _ _ _ (d, m) hm with hm | hm
      · exact hwk _ _ (hfn2 d m hm k sl hm2)
      · have hd : d = (k1 :: k2 :: rest).dropLast := congrArg Prod.fst hm
        have hmm : m = setA ((getA t.nested (k1 :: k2 :: rest).dropLast).getD [])
            ((k1 :: k2 :: rest).getLast (by simp))
            (match getA ((getA t.nested (k1 :: k2 :: rest).dropLast).getD [])
                ((k1 :: k2 :: rest).getLast (by simp)) with
              | none => Slot.fn r
              | some _ => Slot.promiseFn) := by
          simpa using congrArg Prod.snd hm
        rw [hmm] at hm2
        rcases mem_setA _ _ _ (k, sl) hm2 with hm2 | hm2
        · cases hget : getA t.nested (k1 :: k2 :: rest).dropLast with
          | none => rw [hget] at hm2; simp at hm2
          | some mm =>
            rw [hget] at hm2
            simp only [Option.getD_some] at hm2
            have hold := hfn2 _ mm (getA_mem _ _ _ hget) k sl hm2
            rw [hd]
            exact hwk _ _ hold
        · have hk : k = (k1 :: k2 :: rest).getLast (by simp) := by
            simpa using congrArg Prod.fst hm2
          have hsl := congrArg Prod.snd hm2
          simp only at hsl
          cases hget : getA ((getA t.nested (k1 :: k2 :: rest).dropLast).getD [])
              ((k1 :: k2 :: rest).getLast (by simp)) with
          | some sl0 =>
            cases hget2 : getA t.nested (k1 :: k2 :: rest).dropLast with
            | none =>
              rw [hget2] at hget
              simp [getA] at hget
            | some mm =>
              rw [hget2] at hget
              simp only [Option.getD_some] at hget
              have hsnd := (hsound.2 _ mm (getA_mem _ _ _ hget2)).2
                _ sl0 (getA_mem _ _ _ hget)
              obtain ⟨_, r0, hr0, hp0⟩ := hsnd
              have hp0' : selPath r0 = k1 :: k2 :: rest := by
                rw [hp0]
                exact @List.dropLast_append_getLast _ (k1 :: k2 :: rest) (by simp)
              have hmem3 : selPath r ∈ base.map selPath := by
                rw [hsp, ← hp0']
                exact List.mem_map_of_mem _ hr0
              exact absurd hmem3 hnew
          | none =>
            rw [hget] at hsl
            simp at hsl
            refine ⟨r, List.mem_append_right _ (List.mem_cons_self _ _), hsl, ?_⟩
            rw [hsp, hd, hk]
            exact (@List.dropLast_append_getLast _ (k1 :: k2 :: rest) (by simp)).symm

theorem foldl_insertReg_fn :
    ∀ (rest : List Reg) (t : ActionTree) (base : List Reg),
      allDistinct ((base ++ rest).map selPath) = true →
      treeSound base t → treeFn base t →
      treeFn (base ++ rest) (rest.foldl insertReg t) := by
  intro rest
  induction rest with
  | nil => intro t base _ _ h; simpa using h
  | cons r tl ih =>
    intro t base hdist hsound hfn
    have hnew : selPath r ∉ base.map selPath := by
      refine allDistinct_not_mem (base.map selPath) (selPath r) (tl.map selPath) ?_
      simpa using hdist
    have h2 := ih (insertReg t r) (base ++ [r])
      (by simpa using hdist)
      (insertReg_sound t r base hsound)
      (insertReg_fn t r base hsound hfn hnew)
    simpa using h2

theorem buildActionTree_fn (regs : List Reg)
    (hdist : allDistinct (regs.map selPath) = true) :
    treeFn regs (buildActionTree regs) := by
  have h := foldl_insertReg_fn regs ⟨[], []⟩ [] (by simpa using hdist)
    ⟨fun k sl hm => by simp at hm, fun d m hm => by simp at hm⟩
    ⟨fun k sl hm => by simp at hm, fun d m hm k sl hm2 => by simp at hm⟩
  simpa [buildActionTree] using h

/-! ## Identity of the composed reducer on unknown action types -/

theorem adaptHandler_passthrough (r : Reg) (v : JsVal)
    (action : Option JsAction) (hv : isUndefined v = false)
    (ha : ∀ a, action = some a → a.type ≠ r.type) :
    adaptHandler r v action = .ok v := by
  cases action with
  | none => simp [adaptHandler, hv]
  | some a => simp [adaptHandler, hv, ha a rfl]

theorem applyLeaves_id (action : Option JsAction) :
    ∀ (m : List (String × Slot)) (s : Fields),
      (∀ k sl, (k, sl) ∈ m → ∃ r : Reg, sl = Slot.fn r ∧
        (∀ a, action = some a → a.type ≠ r.type) ∧
        isUndefined (getF s k) = false) →
      applyLeaves action m s = .ok s := by
  intro m
  induction m with
  | nil => intro s _; rfl
  | cons hd tl ih =>
    intro s hcond
    obtain ⟨k0, sl0⟩ := hd
    obtain ⟨r, hr, hty, hdefs⟩ := hcond k0 sl0 (List.mem_cons_self _ _)
    have hstep : invokeSlot sl0 (getF s k0) action = .ok (getF s k0) := by
      rw [hr]
      exact adaptHandler_passthrough r _ action hdefs hty
    simp only [applyLeaves, hstep, setF_getF_id s k0 hdefs]
    exact ih s (fun k sl hm => hcond k sl (List.mem_cons_of_mem _ hm))

theorem descendUpdate_id (upd : Fields → Except JsErr Fields) :
    ∀ (dt : List String) (s sub : Fields),
      nodeAt s dt = some sub → upd sub = .ok sub →
      descendUpdate upd dt s = .ok s := by
  intro dt
  induction dt with
  | nil =>
    intro s sub hn hu
    simp only [nodeAt] at hn
    cases hn
    exact hu
  | cons q dt2 ih =>
    intro s sub hn hu
    simp only [nodeAt] at hn
    cases hg : getF s q with
    | obj sub1 =>
      rw [hg] at hn
      have hn2 : nodeAt sub1 dt2 = some sub := by simpa using hn
      have hget : getA s q = some (.obj sub1) := by
        have hq := getA_of_getF s q (by rw [hg]; rfl)
        rw [hg] at hq
        exact hq
      simp only [descendUpdate, hg, ih sub1 sub hn2 hu, setF,
        setA_getA_id s q (.obj sub1) hget]
    | undefined => rw [hg] at hn; simp at hn
    | nan => rw [hg] at hn; simp at hn
    | int n => rw [hg] at hn; simp at hn
    | str s2 => rw [hg] at hn; simp at hn
    | pending i => rw [hg] at hn; simp at hn

theorem applyTraversers_id (action : Option JsAction) :
    ∀ (ts : List (List String × List (String × Slot))) (s : Fields),
      (∀ dt m, (dt, m) ∈ ts → ∃ sub, nodeAt s dt = some sub ∧
        applyLeaves action m sub = .ok sub) →
      applyTraversers action ts s = .ok s := by
  intro ts
  induction ts with
  | nil => intro s _; rfl
  | cons hd tl ih =>
    intro s hcond
    obtain ⟨dt0, m0⟩ := hd
    obtain ⟨sub, hn, hap⟩ := hcond dt0 m0 (List.mem_cons_self _ _)
    simp only [applyTraversers,
      descendUpdate_id (applyLeaves action m0) dt0 s sub hn hap]
    exact ih s (fun dt m hm => hcond dt m (List.mem_cons_of_mem _ hm))

theorem pathDefined_cons (s : Fields) (q : String) (p : List String)
    (hp : p ≠ []) :
    pathDefined s (q :: p)
      = (match getF s q with
         | .obj sub => pathDefined sub p
         | _ => false) := by
  cases p with
  | nil => exact absurd rfl hp
  | cons a l => cases hg : getF s q <;> simp [pathDefined, hg]

theorem pathDefined_decomp :
    ∀ (d : List String) (k : String) (s : Fields),
      pathDefined s (d ++ [k]) = true →
      ∃ sub, nodeAt s d = some sub ∧ isUndefined (getF sub k) = false := by
  intro d
  induction d with
  | nil =>
    intro k s h
    exact ⟨s, rfl, by simpa [pathDefined] using h⟩
  | cons q d2 ih =>
    intro k s h
    rw [List.cons_append, pathDefined_cons s q (d2 ++ [k]) (by simp)] at h
    cases hg : getF s q with
    | obj sub =>
      rw [hg] at h
      obtain ⟨sub2, hn, hu⟩ := ih k sub h
      exact ⟨sub2, by simp [nodeAt, hg, hn], hu⟩
    | undefined => rw [hg] at h; simp at h
    | nan => rw [hg] at h; simp at h
    | int n => rw [hg] at h; simp at h
    | str s2 => rw [hg] at h; simp at h
    | pending i => rw [hg] at h; simp at h

/-! ## Engine trace lemmas -/

theorem enqueueEmits_trace :
    ∀ (l : List JsAction) (e : Engine), (enqueueEmits e l).trace = e.trace := by
  intro l
  induction l with
  | nil => intro e; rfl
  | cons a tl ih => intro e; simp only [enqueueEmits]; exact ih _

theorem runSideEffects_trace (ty : String) (received : JsVal) :
    ∀ (effs : List SEff) (idx : Nat) (e : Engine),
      ∃ ext, ((runSideEffects ty received idx effs e).1).trace
        = e.trace ++ ext := by
  intro effs
  induction effs with
  | nil => intro idx e; exact ⟨[], by simp [runSideEffects]⟩
  | cons f tl ih =>
    intro idx e
    cases hr : (f.run received).2 with
    | false =>
      obtain ⟨ext2, hext⟩ := ih (idx + 1) (enqueueEmits
        { e with trace := e.trace ++ [Ev.effectRun ty idx received] }
        (f.run received).1)
      refine ⟨[Ev.effectRun ty idx received] ++ ext2, ?_⟩
      simp [runSideEffects, hr, enqueueEmits_trace, hext]
    | true =>
      refine ⟨[Ev.effectRun ty idx received, Ev.effectThrew ty idx], ?_⟩
      simp [runSideEffects, hr, enqueueEmits_trace]

theorem publishTransition_trace (e : Engine) (a : JsAction) :
    (publishTransition e a).trace
      = e.trace ++ [Ev.publish (.pending e.pends.length)] := rfl

theorem runExecutor_trace (effects : SideEffects) (e : Engine) (cid : Nat)
    (a : JsAction) :
    ∃ ext, ((runExecutor effects e cid a).1).trace = e.trace ++ ext := by
  obtain ⟨ext1, hext1⟩ := runSideEffects_trace a.type
    (publishTransition e a).published ((getA effects a.type).getD []) 0
    (publishTransition e a)
  rcases hse : runSideEffects a.type (publishTransition e a).published 0
      ((getA effects a.type).getD []) (publishTransition e a) with ⟨ese, bse⟩
  rw [hse] at hext1
  simp only at hext1
  cases bse with
  | true =>
    refine ⟨[Ev.publish (.pending e.pends.length)] ++ ext1, ?_⟩
    simp only [runExecutor, hse]
    simp [hext1, publishTransition_trace]
  | false =>
    refine ⟨[Ev.publish (.pending e.pends.length)] ++ ext1
      ++ [Ev.resolve cid], ?_⟩
    simp only [runExecutor, hse]
    simp only [Bool.false_eq_true, if_false]
    rw [hext1, publishTransition_trace]
    simp

/-- With no side effect registered for the dispatched type, the executor
just publishes the pending promise and resolves the caller. -/
theorem runExecutor_resolves (effects : SideEffects) (e : Engine) (cid : Nat)
    (a : JsAction) (heff : getA effects a.type = none) :
    runExecutor effects e cid a
      = ({ publishTransition e a with
          isDispatching := false
          trace := (publishTransition e a).trace ++ [Ev.resolve cid] },
         false) := by
  unfold runExecutor
  rw [heff]
  rfl

theorem dispatchObj_queued (effects : SideEffects) (fuel : Nat) (e : Engine)
    (cid : Nat) (a : JsAction) (hdisp : e.isDispatching = true) :
    dispatchObj effects fuel e cid a = { e with queue := e.queue ++ [(cid, a)] } := by
  rw [dispatchObj]
  simp [hdisp]

theorem dispatchObj_threw (effects : SideEffects) (fuel : Nat) (e : Engine)
    (cid : Nat) (a : JsAction) (e2 : Engine)
    (hdisp : e.isDispatching = false)
    (hex : runExecutor effects e cid a = (e2, true)) :
    dispatchObj effects fuel e cid a = e2 := by
  rw [dispatchObj]
  simp [hdisp, hex]

theorem dispatchObj_done (effects : SideEffects) (fuel : Nat) (e : Engine)
    (cid : Nat) (a : JsAction) (e3 : Engine)
    (hdisp : e.isDispatching = false)
    (hex : runExecutor effects e cid a = (e3, false))
    (hq : e3.queue = []) :
    dispatchObj effects fuel e cid a = e3 := by
  rw [dispatchObj]
  cases fuel <;> simp [hdisp, hex, hq]

theorem dispatchObj_flush_zero (effects : SideEffects) (e : Engine)
    (cid : Nat) (a : JsAction) (e3 : Engine) (c : Nat) (act : JsAction)
    (rest : List (Nat × JsAction))
    (hdisp : e.isDispatching = false)
    (hex : runExecutor effects e cid a = (e3, false))
    (hq : e3.queue = (c, act) :: rest) :
    dispatchObj effects 0 e cid a = e3 := by
  rw [dispatchObj]
  simp [hdisp, hex, hq]

theorem dispatchObj_flush_succ (effects : SideEffects) (n : Nat) (e : Engine)
    (cid : Nat) (a : JsAction) (e3 : Engine) (c : Nat) (act : JsAction)
    (rest : List (Nat × JsAction))
    (hdisp : e.isDispatching = false)
    (hex : runExecutor effects e cid a = (e3, false))
    (hq : e3.queue = (c, act) :: rest) :
    dispatchObj effects (n + 1) e cid a
      = dispatchObj effects n { e3 with queue := rest } c act := by
  rw [dispatchObj]
  simp [hdisp, hex, hq]

theorem dispatchObj_trace (effects : SideEffects) :
    ∀ (fuel : Nat) (e : Engine) (cid : Nat) (a : JsAction),
      ∃ ext, (dispatchObj effects fuel e cid a).trace = e.trace ++ ext := by
  intro fuel
  induction fuel with
  | zero =>
    intro e cid a
    by_cases hdisp : e.isDispatching
    · exact ⟨[], by rw [dispatchObj_queued effects 0 e cid a hdisp]; simp⟩
    · rw [Bool.not_eq_true] at hdisp
      obtain ⟨ext1, hext1⟩ := runExecutor_trace effects e cid a
      rcases hex : runExecutor effects e cid a with ⟨e2, b⟩
      rw [hex] at hext1
      simp only at hext1
      cases b with
      | true =>
        exact ⟨ext1, by rw [dispatchObj_threw effects 0 e cid a e2 hdisp hex]
                        exact hext1⟩
      | false =>
        cases hq : e2.queue with
        | nil =>
          exact ⟨ext1, by rw [dispatchObj_done effects 0 e cid a e2 hdisp hex hq]
                          exact hext1⟩
        | cons hd rest =>
          obtain ⟨c, act⟩ := hd
          exact ⟨ext1, by
            rw [dispatchObj_flush_zero effects e cid a e2 c act rest hdisp hex hq]
            exact hext1⟩
  | succ n ih =>
    intro e cid a
    by_cases hdisp : e.isDispatching
    · exact ⟨[], by rw [dispatchObj_queued effects (n + 1) e cid a hdisp]; simp⟩
    · rw [Bool.not_eq_true] at hdisp
      obtain ⟨ext1, hext1⟩ := runExecutor_trace effects e cid a
      rcases hex : runExecutor effects e cid a with ⟨e2, b⟩
      rw [hex] at hext1
      simp only at hext1
      cases b with
      | true =>
        exact ⟨ext1, by rw [dispatchObj_threw effects (n + 1) e cid a e2 hdisp hex]
                        exact hext1⟩
      | false =>
        cases hq : e2.queue with
        | nil =>
          exact ⟨ext1, by
            rw [dispatchObj_done effects (n + 1) e cid a e2 hdisp hex hq]
            exact hext1⟩
        | cons hd rest =>
          obtain ⟨c, act⟩ := hd
          obtain ⟨ext2, hext2⟩ := ih { e2 with queue := rest } c act
          refine ⟨ext1 ++ ext2, ?_⟩
          rw [dispatchObj_flush_succ effects n e cid a e2 c act rest hdisp hex hq]
          rw [hext2]
          simp only
          rw [hext1]
          simp

theorem resolvedIn_append (tr1 tr2 : List Ev) (cid : Nat) :
    resolvedIn (tr1 ++ tr2) cid = (resolvedIn tr1 cid || resolvedIn tr2 cid) := by
  simp [resolvedIn, List.any_append]

/-- A dispatch submitted to an idle engine whose type has no registered
side effects always resolves its caller (whatever else the queue flush
goes on to do). -/
theorem dispatchObj_resolves (effects : SideEffects) (fuel : Nat) (e : Engine)
    (cid : Nat) (a : JsAction) (hidle : e.isDispatching = false)
    (heff : getA effects a.type = none) :
    resolvedIn (dispatchObj effects fuel e cid a).trace cid = true := by
  have hex := runExecutor_resolves effects e cid a heff
  have hres : resolvedIn ({ publishTransition e a with
      isDispatching := false
      trace := (publishTransition e a).trace ++ [Ev.resolve cid] } :
        Engine).trace cid = true := by
    simp [resolvedIn_append, resolvedIn]
  cases fuel with
  | zero =>
    cases hq : ({ publishTransition e a with
        isDispatching := false
        trace := (publishTransition e a).trace ++ [Ev.resolve cid] } :
          Engine).queue with
    | nil =>
      rw [dispatchObj_done effects 0 e cid a _ hidle hex hq]
      exact hres
    | cons hd rest =>
      obtain ⟨c, act⟩ := hd
      rw [dispatchObj_flush_zero effects e cid a _ c act rest hidle hex hq]
      exact hres
  | succ n =>
    cases hq : ({ publishTransition e a with
        isDispatching := false
        trace := (publishTransition e a).trace ++ [Ev.resolve cid] } :
          Engine).queue with
    | nil =>
      rw [dispatchObj_done effects (n + 1) e cid a _ hidle hex hq]
      exact hres
    | cons hd rest =>
      obtain ⟨c, act⟩ := hd
      rw [dispatchObj_flush_succ effects n e cid a _ c act rest hidle hex hq]
      obtain ⟨ext, hext⟩ := dispatchObj_trace effects n
        { ({ publishTransition e a with
            isDispatching := false
            trace := (publishTransition e a).trace ++ [Ev.resolve cid] } :
              Engine) with queue := rest } c act
      rw [hext]
      simp only
      rw [resolvedIn_append]
      rw [show resolvedIn ({ publishTransition e a with
          isDispatching := false
          trace := (publishTransition e a).trace ++ [Ev.resolve cid] } :
            Engine).trace cid = true from hres]
      rfl

/-! ## Claim theorems -/

/-- C1: the spec's running example does not even reach a store.
Registering `name="increment", type="INC"` at selector `"counter"` and
calling `createStore()` throws a `TypeError`: the registry's
`_actionNames` maps each name to a single type **string**
(actions.ts line 88), while the `Store` constructor declares and treats
the same map as name to string **array** (store.ts line 19), so for the
string `"INC"` it takes the `actionTypes.length > 1` branch and calls
`.reduce` on a string (store.ts lines 28-34). -/
theorem createStore_example_throws :
    (ActionsRegistry.empty.register "increment" "INC" "counter" incHandler).bind
      (fun r => r.createStore .undefined)
      = .error (.typeError "actionTypes.reduce is not a function") := rfl

/-- C2: two handlers registered at the same selector do **not** compose.
The collision branch (actions.ts line 246) stores
`compose(ah.handler, root[ah.selector])`, but `compose` (line 72) is an
`async` function — the stored value is a pending `Promise`, not a
function — and its second argument is looked up under the full selector
string where nothing lives.  Dispatching a matching transition then
calls the stored promise and throws a `TypeError` instead of computing
`H2(H1(prior))` (which here would be `counter = (1 + 5) * 2 = 12`). -/
theorem same_selector_composition_broken :
    runActionHandler [regInc, regDouble] (.obj [("counter", .int 1)])
      (some ⟨"INC", .int 5⟩)
      = .error (.typeError "handler is not a function") := rfl

/-- C9: the compiled adapter of every registered handler
(actions.ts lines 188-213) takes the initial-value path on undefined
state, passes defined state through unchanged when the action is absent
or its type differs from the registration's tag, and invokes the raw
handler with the action's payload exactly when the tags match. -/
theorem adaptHandler_cases :
    (∀ (r : Reg) (action : Option JsAction),
        adaptHandler r .undefined action = r.handler .undefined .undefined)
    ∧ (∀ (r : Reg) (state : JsVal), isUndefined state = false →
        adaptHandler r state none = .ok state)
    ∧ (∀ (r : Reg) (state : JsVal) (a : JsAction), isUndefined state = false →
        a.type ≠ r.type → adaptHandler r state (some a) = .ok state)
    ∧ (∀ (r : Reg) (state : JsVal) (a : JsAction), isUndefined state = false →
        a.type = r.type →
        adaptHandler r state (some a) = r.handler state a.payload) := by
  refine ⟨fun r action => rfl, fun r state h => ?_, fun r state a h h2 => ?_,
    fun r state a h h2 => ?_⟩
  · simp [adaptHandler, h]
  · simp [adaptHandler, h, h2]
  · simp [adaptHandler, h, h2]

/-- Witness for `adaptHandler_cases` at the example registration: a
defined state and a matching type tag reach the raw handler. -/
theorem adaptHandler_cases_witness :
    adaptHandler regInc (.int 4) (some ⟨"INC", .int 5⟩)
      = incHandler (.int 4) (.int 5) :=
  adaptHandler_cases.2.2.2 regInc (.int 4) ⟨"INC", .int 5⟩ rfl rfl

/-- C8: the future returned by `dispatch` resolves although the
transition has not been applied.  `this._state = this._actionHandler({...})`
(store.ts line 140) is not awaited, so the executor publishes the
pending reducer promise, resolves the caller synchronously, and the
store's published snapshot at resolution time is `pending 1` — not the
state object the composed reducer would produce (here
`{counter: 5}`). -/
theorem dispatch_resolves_before_application :
    storePlainDispatch.trace
      = [.publish (.pending 0), .publish (.pending 1), .resolve 0]
    ∧ storePlainDispatch.published = .pending 1
    ∧ (∀ fs, (JsVal.pending 1) ≠ .obj fs)
    ∧ storePlainDispatch.pends
      = [(.undefined, none), (.pending 0, some ⟨"INC", .int 5⟩)]
    ∧ runActionHandler [regInc] (.obj [("counter", .int 0)])
        (some ⟨"INC", .int 5⟩) = .ok (.obj [("counter", .int 5)]) :=
  ⟨rfl, rfl, fun fs h => by simp at h, rfl, rfl⟩

/-- C6: with two side effects registered for `"INC"`, one matching
dispatch runs each callback exactly once, in registration order — but
each receives the store's current value `pending 1`, the un-awaited
reducer promise published at store.ts line 140, not the post-transition
snapshot (which for base `{counter: 0}` would be `{counter: 5}`). -/
theorem side_effects_receive_pending_promise :
    storeTwoEffects.trace
      = [.publish (.pending 0), .publish (.pending 1),
         .effectRun "INC" 0 (.pending 1), .effectRun "INC" 1 (.pending 1),
         .resolve 0]
    ∧ (∀ fs, (JsVal.pending 1) ≠ .obj fs)
    ∧ runActionHandler [regInc] (.obj [("counter", .int 0)])
        (some ⟨"INC", .int 5⟩) = .ok (.obj [("counter", .int 5)]) :=
  ⟨rfl, fun fs h => by simp at h, rfl⟩

/-- C3: a re-entrant dispatch scenario — T1 = `{INC, 5}` whose side
effect dispatches T2 = `{INC, 3}` — produces **no** state-tree snapshot
at all: every published value is a pending promise (store.ts lines 54
and 140 never await the reducer), and T2's recorded reducer computation
takes as its base state `pending 1`, the still-unresolved promise of
T1's computation, not a published snapshot of T1. -/
theorem reentrant_dispatch_publishes_no_snapshot :
    storeReentrant.trace
      = [.publish (.pending 0), .publish (.pending 1),
         .effectRun "INC" 0 (.pending 1), .resolve 0,
         .publish (.pending 2), .effectRun "INC" 0 (.pending 2), .resolve 1]
    ∧ storeReentrant.pends
      = [(.undefined, none), (.pending 0, some ⟨"INC", .int 5⟩),
         (.pending 1, some ⟨"INC", .int 3⟩)]
    ∧ publishesNoSnapshot storeReentrant.trace = true :=
  ⟨rfl, rfl, rfl⟩

/-- C7: a handler error does not propagate to the dispatch caller, and a
side-effect error is not merely swallowed.  The reducer promise is never
awaited (store.ts line 140), so a throwing handler only produces an
unhandled rejection while the caller's dispatch promise still resolves;
a side-effect callback throwing inside the `forEach` (lines 148-154)
aborts the executor before `_isDispatching = false` and `resolve()`, so
that caller's promise never settles and the engine stays locked. -/
theorem handler_and_effect_errors_mishandled :
    runActionHandler [regThrow] (.obj [("counter", .int 0)])
      (some ⟨"BOOM", .undefined⟩) = .error (.error "boom")
    ∧ resolvedIn (dispatchCall [] 9 storeStart ⟨"BOOM", .undefined⟩).trace 0 = true
    ∧ resolvedIn storeThrowingEffect.trace 0 = false
    ∧ storeThrowingEffect.isDispatching = true :=
  ⟨rfl, rfl, rfl, rfl⟩

/-- C5: dispatching an unknown name throws
`action="..." does not exist`, and dispatching a name registered with
multiple types while supplying a type outside the registered set throws
`invalid action type: ...`; both are raised on the path of that specific
`dispatch` call and so reject exactly that caller's promise
(store.ts lines 36-43 and 115-123). -/
theorem dispatch_by_name_errors (effects : SideEffects) (fuel : Nat)
    (e : Engine) (actions : List (String × ActionDispatcher)) (name : String)
    (arg2 arg3 : JsVal) :
    (getA actions name = none →
      dispatchName effects fuel e actions name arg2 arg3
        = .error (.error ("action=\"" ++ name ++ "\" does not exist")))
    ∧ (∀ validTypes, getA actions name = some (.multi validTypes) →
        validTypes.contains (keyOf arg2) = false →
        dispatchName effects fuel e actions name arg2 arg3
          = .error (.error ("invalid action type: actionName=" ++ name ++
              "; type=" ++ keyOf arg2))) := by
  constructor
  · intro h
    simp [dispatchName, h]
  · intro validTypes h h2
    simp [dispatchName, h]
    simpa using h2

/-- Witness for `dispatch_by_name_errors`: a store whose `toggle` action
was registered for types `X` and `Y` rejects an unknown name and an
out-of-set type. -/
theorem dispatch_by_name_errors_witness :
    dispatchName [] 9 emptyEngine [("toggle", .multi ["X", "Y"])] "missing"
        .undefined .undefined
      = .error (.error "action=\"missing\" does not exist")
    ∧ dispatchName [] 9 emptyEngine [("toggle", .multi ["X", "Y"])] "toggle"
        (.str "Z") .undefined
      = .error (.error "invalid action type: actionName=toggle; type=Z") :=
  ⟨(dispatch_by_name_errors [] 9 emptyEngine [("toggle", .multi ["X", "Y"])]
      "missing" .undefined .undefined).1 rfl,
   (dispatch_by_name_errors [] 9 emptyEngine [("toggle", .multi ["X", "Y"])]
      "toggle" (.str "Z") .undefined).2 ["X", "Y"] rfl rfl⟩

/-- C4 counterexample: the claim fails as stated when another handler's
selector is a strict prefix of the multi-segment selector.  With
`regDeep` at `a.b.c` registered before `regShallow` at `a.b`, a `T2`
transition completes successfully, yet the leaf write of the `a.b`
handler replaces the object at `a.b` with `42` and the node `a.b.c` is
gone from the post-transition state. -/
theorem nested_path_clobbered :
    runActionHandler [regDeep, regShallow] (.obj []) (some ⟨"T2", .undefined⟩)
      = .ok (.obj [("a", .obj [("b", .int 42)])])
    ∧ hasNode (.obj [("a", .obj [("b", .int 42)])]) ["a", "b"] "c" = false :=
  ⟨rfl, rfl⟩

/-- C4 (amended): for every handler registered at a multi-segment
selector, **provided no registered selector is a prefix of another**
(they are conflict-free), after any dispatched transition that completes
the state tree contains the selector's node — missing intermediate nodes
are created as empty mappings during the transition
(actions.ts lines 286-309) — even if those intermediate nodes did not
exist in the pre-transition state. -/
theorem nested_selector_materialized (regs : List Reg) (state : JsVal)
    (action : Option JsAction) (out : JsVal)
    (hconf : conflictFree (regs.map selPath) = true)
    (hrun : runActionHandler regs state action = .ok out) :
    ∀ r ∈ regs, ∀ d k, selPath r = d ++ [k] → d ≠ [] →
      hasNode out d k = true := by
  intro r hr d k hsel hd
  simp only [runActionHandler] at hrun
  split at hrun
  · exact absurd hrun (by simp)
  · rename_i s0 hs0
    split at hrun
    · exact absurd hrun (by simp)
    · rename_i s1 hs1
      split at hrun
      · exact absurd hrun (by simp)
      · rename_i s2 hs2
        cases hrun
        show hasNodeF s2 d k = true
        obtain ⟨m, hgm, hkm⟩ := buildActionTree_covers regs r hr d k hsel hd
        obtain ⟨sl, hsl⟩ := Option.isSome_iff_exists.mp hkm
        have hmem : (d, m) ∈ (buildActionTree regs).nested := getA_mem _ _ _ hgm
        have hmem2 : (k, sl) ∈ m := getA_mem _ _ _ hsl
        refine applyTraversers_materialize action (buildActionTree regs).nested
          s1 s2 hs2 ?_ d m hmem k sl hmem2
        intro dt mm hmm ka sla hsla dtb mb hmb kb slb hslb hpre
        have hs := (buildActionTree_sound regs).2
        obtain ⟨ra, hra, hpa⟩ := ((hs dt mm hmm).2 ka sla hsla).2
        obtain ⟨rb, hrb, hpb⟩ := ((hs dtb mb hmb).2 kb slb hslb).2
        have heq := conflictFree_spec _ hconf (selPath rb)
          (List.mem_map_of_mem _ hrb) (selPath ra) (List.mem_map_of_mem _ hra)
          (by rw [hpa, hpb]; exact hpre)
        rw [← hpa, ← hpb]
        exact heq

/-- Witness for `nested_selector_materialized`: one handler at `a.b.c`,
a matching transition on the empty state tree, and the node `a.b.c` is
materialized in the result. -/
theorem nested_selector_materialized_witness :
    hasNode (.obj [("a", .obj [("b", .obj [("c", .int 0)])])])
      ["a", "b"] "c" = true :=
  nested_selector_materialized [regDeep] (.obj []) (some ⟨"T1", .undefined⟩)
    (.obj [("a", .obj [("b", .obj [("c", .int 0)])])]) rfl rfl
    regDeep (List.mem_cons_self _ _) ["a", "b"] "c" rfl
    (List.cons_ne_nil _ _)

/-- C10: dispatching an action object whose type tag matches no
registered handler never raises an error.  At the reducer, every adapter
passes defined state through unchanged (actions.ts lines 199-213) and
the structural walk rewrites each defined node with its own value, so
the whole state object is returned untouched; and — dispatch by object
skipping the name lookup entirely (store.ts lines 115-134) — the
dispatch future resolves normally (here: with no side effect registered
for that type). -/
theorem unknown_type_dispatch_noop (regs : List Reg) (s : Fields)
    (a : JsAction) (effects : SideEffects) (e : Engine) (fuel : Nat)
    (hdist : allDistinct (regs.map selPath) = true)
    (htype : (regs.map Reg.type).contains a.type = false)
    (hdefs : regs.all (fun r => pathDefined s (selPath r)) = true)
    (heff : getA effects a.type = none)
    (hidle : e.isDispatching = false) :
    runActionHandler regs (.obj s) (some a) = .ok (.obj s)
    ∧ resolvedIn (dispatchCall effects fuel e a).trace e.nextCall = true := by
  have hfn := buildActionTree_fn regs hdist
  have hsound := buildActionTree_sound regs
  have htype2 : ∀ r ∈ regs, a.type ≠ r.type := by
    intro r hr heq2
    have hmem : a.type ∈ regs.map Reg.type := by
      rw [heq2]
      exact List.mem_map_of_mem _ hr
    exact absurd hmem (by simpa using htype)
  constructor
  · have hroot : applyLeaves (some a) (buildActionTree regs).root s = .ok s := by
      apply applyLeaves_id
      intro k sl hm
      obtain ⟨r, hr, hslr, hselr⟩ := hfn.1 k sl hm
      refine ⟨r, hslr, ?_, ?_⟩
      · intro a2 ha2
        injection ha2 with h3
        rw [← h3]
        exact htype2 r hr
      · have hpd := List.all_eq_true.mp hdefs r hr
        rw [hselr] at hpd
        simpa [pathDefined] using hpd
    have hnest : applyTraversers (some a) (buildActionTree regs).nested s
        = .ok s := by
      apply applyTraversers_id
      intro dt m hm
      obtain ⟨hne, hmem⟩ := hsound.2 dt m hm
      have hsome : ∃ k0 sl0, (k0, sl0) ∈ m := by
        cases m with
        | nil => exact absurd rfl hne
        | cons hd tlm => exact ⟨hd.1, hd.2, by simp⟩
      obtain ⟨k0, sl0, hm0⟩ := hsome
      obtain ⟨hdne0, r0, hr0, hsel0⟩ := hmem k0 sl0 hm0
      have hpd0 := List.all_eq_true.mp hdefs r0 hr0
      rw [hsel0] at hpd0
      obtain ⟨sub, hnode, hleaf0⟩ := pathDefined_decomp dt k0 s hpd0
      refine ⟨sub, hnode, ?_⟩
      apply applyLeaves_id
      intro k sl hm2
      obtain ⟨r, hr, hslr, hselr⟩ := hfn.2 dt m hm k sl hm2
      have hpd2 := List.all_eq_true.mp hdefs r hr
      rw [hselr] at hpd2
      obtain ⟨sub2, hnode2, hleaf2⟩ := pathDefined_decomp dt k s hpd2
      rw [hnode] at hnode2
      injection hnode2 with hh
      rw [← hh] at hleaf2
      refine ⟨r, hslr, ?_, hleaf2⟩
      intro a2 ha2
      injection ha2 with h3
      rw [← h3]
      exact htype2 r hr
    simp only [runActionHandler, hroot, hnest]
  · exact dispatchObj_resolves effects fuel { e with nextCall := e.nextCall + 1 }
      e.nextCall a hidle heff

/-- Witness for `unknown_type_dispatch_noop`: the counter store hit with
an unregistered `RESET` action keeps `counter = 0` and the dispatch
resolves. -/
theorem unknown_type_dispatch_noop_witness :
    runActionHandler [regInc] (.obj [("counter", .int 0)])
      (some ⟨"RESET", .undefined⟩) = .ok (.obj [("counter", .int 0)])
    ∧ resolvedIn (dispatchCall [] 9 storeStart ⟨"RESET", .undefined⟩).trace 0
        = true :=
  unknown_type_dispatch_noop [regInc] [("counter", .int 0)] ⟨"RESET", .undefined⟩
    [] storeStart 9 rfl rfl rfl rfl rfl

end Neodux
